import Mathlib

/-!
Verification of the xpress_huff_compress repository (ms-compress Xpress-Huffman
encoder, C sources) against its natural-language specification.

The development is a shallow embedding of the C sources:
  * `Bitstream.h`  (part_003): `OutputBitstream`, `WriteBits`, `WriteRawByte`,
    `WriteRawUInt16`, `WriteRawUInt32`, `Finish`;
  * `XpressDictionary.h`: the hash constants set up by `XpressDictionary_init`,
    `HashUpdate`, `GetMatchLength` and `Find`;
  * `xpress_huff_compress.c` (part_000): `xh_compress_no_matching`;
  * `HuffmanEncoder.h` (part_002) together with `sorting.h` (part_001):
    `CreateCodesSlow` with its stable sorts and the package-merge rows.

Machine integers are modelled as `ℕ` with explicit reductions (`% 4294967296`,
`% 65536`, `% 256`, `&&& 15`, ...) exactly where the C types truncate.  Byte
memory is a total map `ℕ → ℕ` from addresses to byte values; pointers into the
input are modelled as offsets from `ctx->start`.
-/

namespace XpressHuff

/-! ### Bitstream (part_003)

`OutputBitstream` holds the output cursor `out`, the two reserved 16-bit slot
positions `pntr0`/`pntr1` (C: `pntr[0]`, `pntr[1]`), the 32-bit accumulator
`mask`, the valid-bit count `bits`, and the byte memory being written. -/

structure OutputBitstream where
  out : ℕ
  pntr0 : ℕ
  pntr1 : ℕ
  mask : ℕ
  bits : ℕ
  mem : ℕ → ℕ

/-- C macro `SET_UINT16_RAW`: store a 16-bit value little-endian at address `p`. -/
def setUInt16 (m : ℕ → ℕ) (p v : ℕ) : ℕ → ℕ :=
  fun a => if a = p then v % 256 else if a = p + 1 then v / 256 % 256 else m a

/-- C macro `SET_UINT32_RAW`: store a 32-bit value little-endian at address `p`. -/
def setUInt32 (m : ℕ → ℕ) (p v : ℕ) : ℕ → ℕ :=
  fun a =>
    if a = p then v % 256
    else if a = p + 1 then v / 256 % 256
    else if a = p + 2 then v / 65536 % 256
    else if a = p + 3 then v / 16777216 % 256
    else m a

/-- `OutputBitstream_init(ctx, out)`: cursor starts 4 bytes in, the two pending
slots are the reserved bytes `out` and `out+2`, accumulator and bit count 0. -/
def OutputBitstream_init (m : ℕ → ℕ) (out : ℕ) : OutputBitstream :=
  ⟨out + 4, out, out + 2, 0, 0, m⟩

/-- `WriteBits(ctx, b, n)` from part_003 lines 81-93.  C semantics:
`ctx->mask |= b << (32 - (ctx->bits += n));` on `uint32_t`, then if
`ctx->bits > 16` the top 16 bits are flushed little-endian to `pntr[0]`,
`mask <<= 16`, `bits &= 0xF`, `pntr[0] = pntr[1]`, `pntr[1] = out`, `out += 2`. -/
def WriteBits (ctx : OutputBitstream) (b n : ℕ) : OutputBitstream :=
  let bits := ctx.bits + n
  let mask := (ctx.mask ||| (b <<< (32 - bits))) % 4294967296
  if 16 < bits then
    { out := ctx.out + 2, pntr0 := ctx.pntr1, pntr1 := ctx.out,
      mask := (mask <<< 16) % 4294967296, bits := bits &&& 15,
      mem := setUInt16 ctx.mem ctx.pntr0 (mask >>> 16) }
  else
    { ctx with mask := mask, bits := bits }

/-- `WriteRawByte(ctx, x)`: `*ctx->out++ = x;` (part_003 lines 95-98). -/
def WriteRawByte (ctx : OutputBitstream) (x : ℕ) : OutputBitstream :=
  { ctx with mem := fun a => if a = ctx.out then x % 256 else ctx.mem a,
             out := ctx.out + 1 }

/-- `WriteRawUInt16(ctx, x)` (part_003 lines 100-104). -/
def WriteRawUInt16 (ctx : OutputBitstream) (x : ℕ) : OutputBitstream :=
  { ctx with mem := setUInt16 ctx.mem ctx.out x, out := ctx.out + 2 }

/-- `WriteRawUInt32(ctx, x)` (part_003 lines 106-110). -/
def WriteRawUInt32 (ctx : OutputBitstream) (x : ℕ) : OutputBitstream :=
  { ctx with mem := setUInt32 ctx.mem ctx.out x, out := ctx.out + 4 }

/-- `Finish(ctx)` (part_003 lines 112-116): flush the pending slot, zero the
next-pending slot. -/
def Finish (ctx : OutputBitstream) : OutputBitstream :=
  { ctx with mem := setUInt16 (setUInt16 ctx.mem ctx.pntr0 (ctx.mask >>> 16)) ctx.pntr1 0 }

/-! ### Dictionary (src/XpressDictionary.h)

Positions are offsets from `ctx->start`; `NULL` table/window entries are
`none`.  The constants mirror the `#define`s and `XpressDictionary_init`. -/

def CHUNK_SIZE : ℕ := 65536
def MAX_OFFSET : ℕ := 65535
def HASH_BITS : ℕ := 15
def MAX_CHAIN : ℕ := 11
def NICE_LENGTH : ℕ := 48

/-- `ctx->WindowSize = CHUNK_SIZE << 1` (init, line 55). -/
def WindowSize : ℕ := CHUNK_SIZE <<< 1

/-- `ctx->WindowMask = ctx->WindowSize - 1` (init, line 56). -/
def WindowMask : ℕ := WindowSize - 1

/-- `ctx->HashSize = 1 << HASH_BITS` (init, line 57). -/
def HashSize : ℕ := 1 <<< HASH_BITS

/-- `ctx->HashMask = ctx->HashSize - 1` (init, line 58). -/
def HashMask : ℕ := HashSize - 1

/-- `ctx->HashShift = (HASH_BITS+2)/3` (init, line 59); C integer division. -/
def HashShift : ℕ := (HASH_BITS + 2) / 3

/-- `WindowPos(ctx, x) = (x - ctx->start) & ctx->WindowMask` with positions
already taken relative to `ctx->start`. -/
def WindowPos (x : ℕ) : ℕ := x &&& WindowMask

/-- `HashUpdate(ctx, h, c) = ((h << ctx->HashShift) ^ c) & ctx->HashMask`. -/
def HashUpdate (h c : ℕ) : ℕ := ((h <<< HashShift) ^^^ c) &&& HashMask

/-- Iteration count of the do-while loop of `GetMatchLength` (lines 97-101):
each iteration reads one byte pair and advances; it continues while the
advanced `b` is still `< end` and the bytes just read were equal.  The counter
argument is `endx - b`, so `b + 1 < endx` is exactly `2 ≤ fuel`. -/
def gmlIter (bytes : ℕ → ℕ) : ℕ → ℕ → ℕ → ℕ
  | fuel + 2, a, b => if bytes a = bytes b then gmlIter bytes (fuel + 1) (a + 1) (b + 1) + 1 else 1
  | _, _, _ => 1

/-- `GetMatchLength(a, b, end)` returns `b - b_start - 1` where `b` has
advanced once per loop iteration. -/
def GetMatchLength (bytes : ℕ → ℕ) (a b endx : ℕ) : ℕ :=
  gmlIter bytes (endx - b) a b - 1

/-- The candidate filter of `Find` (line 192):
`x[0] == prefix0 && x[1] == prefix1`. -/
def pmatch (bytes : ℕ → ℕ) (data x : ℕ) : Prop :=
  bytes x = bytes data ∧ bytes (x + 1) = bytes (data + 1)

instance instDecidablePmatch (bytes : ℕ → ℕ) (data x : ℕ) : Decidable (pmatch bytes data x) :=
  inferInstanceAs (Decidable (_ ∧ _))

/-- The chain walk of `Find` (lines 182-204).  The for-loop condition
`chain_length && x >= xend` (with `xend = data - MAX_OFFSET`, and a `NULL`
entry failing the comparison) is the fuel test, the `none` test and the
`x + MAX_OFFSET < data` test; the body keeps a strictly longer match
(`if (l > len)`), breaking once `len >= NICE_LENGTH`, and otherwise steps to
`window[WindowPos(x)]` with the chain counter decreasing. -/
def findLoop (bytes : ℕ → ℕ) (window : ℕ → Option ℕ) (endx data : ℕ) :
    ℕ → Option ℕ → ℕ → Option ℕ → ℕ × Option ℕ
  | 0, _, len, off => (len, off)
  | _ + 1, none, len, off => (len, off)
  | fuel + 1, some x, len, off =>
    if x + MAX_OFFSET < data then (len, off)
    else if pmatch bytes data x then
      if len < GetMatchLength bytes x data endx then
        if NICE_LENGTH ≤ GetMatchLength bytes x data endx then
          (GetMatchLength bytes x data endx, some (data - x))
        else
          findLoop bytes window endx data fuel (window (WindowPos x))
            (GetMatchLength bytes x data endx) (some (data - x))
      else findLoop bytes window endx data fuel (window (WindowPos x)) len off
    else findLoop bytes window endx data fuel (window (WindowPos x)) len off

/-- `Find(ctx, data, offset)`: start from `window[WindowPos(data)]` with
`len = 2`, `chain_length = MAX_CHAIN`; `endx = ctx->end` (the
`PNTR_BITS <= 32` branch, line 171).  The returned pair is the returned
length and the final value of `*offset` (`none` when never written). -/
def Find (bytes : ℕ → ℕ) (window : ℕ → Option ℕ) (endx data : ℕ) : ℕ × Option ℕ :=
  findLoop bytes window endx data MAX_CHAIN (window (WindowPos data)) 2 none

/-- The list of chain candidates whose loop body executes in `Find`, in visit
order (same recursion structure as `findLoop`). -/
def findVisits (bytes : ℕ → ℕ) (window : ℕ → Option ℕ) (endx data : ℕ) :
    ℕ → Option ℕ → ℕ → List ℕ
  | 0, _, _ => []
  | _ + 1, none, _ => []
  | fuel + 1, some x, len =>
    if x + MAX_OFFSET < data then []
    else if pmatch bytes data x then
      if len < GetMatchLength bytes x data endx then
        if NICE_LENGTH ≤ GetMatchLength bytes x data endx then [x]
        else x :: findVisits bytes window endx data fuel (window (WindowPos x))
          (GetMatchLength bytes x data endx)
      else x :: findVisits bytes window endx data fuel (window (WindowPos x)) len
    else x :: findVisits bytes window endx data fuel (window (WindowPos x)) len

/-- The candidates considered by one call of `Find`. -/
def FindConsidered (bytes : ℕ → ℕ) (window : ℕ → Option ℕ) (endx data : ℕ) : List ℕ :=
  findVisits bytes window endx data MAX_CHAIN (window (WindowPos data)) 2

/-! ### `xh_compress_no_matching` (part_000 lines 146-171)

The input is a list of byte values; the result is the number of intermediate
buffer bytes the function reports (`out - out_orig`) together with the
symbol-count histogram.  `SET_UINT32_RAW(out,0); out += 3;` advances the
reported count by 3 even though a fourth memory byte is touched, exactly as
the C return value does. -/

/-- `++symbol_counts[b]`. -/
def bump (h : ℕ → ℕ) (b : ℕ) : ℕ → ℕ := fun v => if v = b then h v + 1 else h v

/-- Histogram update of a run of consumed bytes (the `++symbol_counts[*in++]`
loops). -/
def addCounts (h : ℕ → ℕ) (l : List ℕ) : ℕ → ℕ := l.foldl bump h

/-- The `while (in < in_endx)` loop: while more than 32 bytes remain, write a
zero mask word (4 bytes) plus a 32-byte block and count those bytes.  The
fuel is the initial list length, which bounds the iteration count. -/
def xhnmLoop : ℕ → List ℕ → ℕ → (ℕ → ℕ) → ℕ × List ℕ × (ℕ → ℕ)
  | 0, l, w, h => (w, l, h)
  | fuel + 1, l, w, h =>
    if 32 < l.length then xhnmLoop fuel (l.drop 32) (w + 36) (addCounts h (l.take 32))
    else (w, l, h)

/-- `xh_compress_no_matching(in, in_len, is_end, out, symbol_counts)`:
the main loop, then the final mask word plus `rem` bytes (`rem = in_end - in`),
then — when `is_end` — an extra mask word if `rem == 32`, the three
end-of-stream bytes, and `++symbol_counts[STREAM_END]`. -/
def xh_compress_no_matching (inp : List ℕ) (is_end : Bool) : ℕ × (ℕ → ℕ) :=
  let r := xhnmLoop inp.length inp 0 (fun _ => 0)
  let rem := r.2.1.length
  let w := r.1 + 4 + rem
  let h := addCounts r.2.2 r.2.1
  if is_end then (w + (if rem = 32 then 4 else 0) + 3, bump h 256) else (w, h)

/-! ### Stable sorts (part_001) and `CreateCodesSlow` (part_002 lines 132-229)

The C sorts order symbol indices ascending by an external key array; both are
stable.  `insertion_sort_*` moves each element left past strictly greater
keys; `merge_sort_*` recurses on halves and takes from the right half only on
a strictly smaller key.  SYMBOLS = 0x200, HUFF_BITS_MAX = 15. -/

def SYMBOLS : ℕ := 512
def HUFF_BITS_MAX : ℕ := 15

/-- One step of `insertion_sort_*`: place `x` into the sorted prefix, after
every element whose key is `≤ key x` (the C inner while shifts only strictly
greater keys). -/
def insertRight (key : ℕ → ℕ) : List ℕ → ℕ → List ℕ
  | [], x => [x]
  | y :: ys, x => if key x < key y then x :: y :: ys else y :: insertRight key ys x

/-- `insertion_sort_*(syms, conditions, len)`. -/
def insertion_sort (key : ℕ → ℕ) (l : List ℕ) : List ℕ := l.foldl (insertRight key) []

/-- The merge loop of `merge_sort_*`: take from the right half exactly when
its key is strictly smaller. -/
def mergeKey (key : ℕ → ℕ) : List ℕ → List ℕ → List ℕ
  | [], r => r
  | l, [] => l
  | a :: l, b :: r =>
    if key b < key a then b :: mergeKey key (a :: l) r else a :: mergeKey key l (b :: r)
  termination_by l r => l.length + r.length

/-- `merge_sort_*(syms, temp, conditions, len)`: insertion sort below
`SORT_SWITCH_TO_INSERT_LIMIT = 90`, else sort the two halves (split at
`len >> 1`) and merge. -/
def merge_sort (key : ℕ → ℕ) (l : List ℕ) : List ℕ :=
  if h : l.length < 90 then insertion_sort key l
  else mergeKey key (merge_sort key (l.take (l.length / 2)))
    (merge_sort key (l.drop (l.length / 2)))
  termination_by l.length
  decreasing_by
  · simp only [List.length_take]
    omega
  · simp only [List.length_drop]
    omega

/-- The 516-byte `collection` of the package-merge algorithm: per-symbol
tallies plus the total count. -/
structure Collection where
  symbols : ℕ → ℕ
  count : ℕ

def colZero : Collection := ⟨fun _ => 0, 0⟩

/-- A fresh collection holding one symbol (`++symbols[sym]`, `count += counts[sym]`). -/
def colSingle (counts : ℕ → ℕ) (s : ℕ) : Collection :=
  ⟨fun i => if i = s then 1 else 0, counts s⟩

/-- Accumulating one picked item into the collection being built. -/
def colMerge (a b : Collection) : Collection :=
  ⟨fun i => a.symbols i + b.symbols i, a.count + b.count⟩

/-- One pick of the inner `for (i = 0; i < 2; ...)` loop: take the front
collection when the symbol row is exhausted or the collection is strictly
cheaper (`cols[cols_pos].count < symbol_counts[syms_by_count[pos]]`),
otherwise take the front symbol.  The `([], [])` case never arises under the
loop guard. -/
def pmTake (counts : ℕ → ℕ) : List Collection → List ℕ → Collection × List Collection × List ℕ
  | cols, [] =>
    match cols with
    | c :: cs => (c, cs, [])
    | [] => (colZero, [], [])
  | cols, p :: ps =>
    match cols with
    | c :: cs => if c.count < counts p then (c, cs, p :: ps) else (colSingle counts p, c :: cs, ps)
    | [] => (colSingle counts p, [], ps)

/-- The `while ((cols_len-cols_pos + len-pos) > 1)` packaging loop: as long as
more than one item remains, pick two and package them into a new collection.
The fuel is the total number of items, which bounds the iteration count. -/
def pmPackage (counts : ℕ → ℕ) : ℕ → List Collection → List ℕ → List Collection × List Collection × List ℕ
  | 0, cols, ps => ([], cols, ps)
  | fuel + 1, cols, ps =>
    if 1 < cols.length + ps.length then
      let t1 := pmTake counts cols ps
      let t2 := pmTake counts t1.2.1 t1.2.2
      let r := pmPackage counts fuel t2.2.1 t2.2.2
      (colMerge t1.1 t2.1 :: r.1, r.2.1, r.2.2)
    else ([], cols, ps)

/-- The leftover drop after each row: a leftover collection decrements the
length of each of its symbols, else a leftover symbol is decremented once. -/
def pmDropLeftover (lens : ℕ → ℕ) : List Collection → List ℕ → ℕ → ℕ
  | c :: _, _ => fun i => lens i - c.symbols i
  | [], p :: _ => fun i => if i = p then lens i - 1 else lens i
  | [], [] => lens

/-- The `for (j = 0; j < HUFF_BITS_MAX; ++j)` row loop: each row packages the
current collections with the full count-sorted symbol row and drops the
leftover from the lengths. -/
def pmRows (counts : ℕ → ℕ) (sbc : List ℕ) : ℕ → List Collection → (ℕ → ℕ) → ℕ → ℕ
  | 0, _, lens => lens
  | j + 1, cols, lens =>
    let r := pmPackage counts (cols.length + sbc.length) cols sbc
    pmRows counts sbc j r.1 (pmDropLeftover lens r.2.1 r.2.2)

/-- Canonical code assignment (part_002 lines 221-225):
`codes[syms_by_len[i]] = (codes[syms_by_len[i-1]] + 1) << (lens diff)` on
`uint16_t`. -/
def assignCodes (lens : ℕ → ℕ) : List ℕ → (ℕ → ℕ) → ℕ → ℕ
  | a :: b :: rest, codes =>
    assignCodes lens (b :: rest)
      (fun i => if i = b then ((codes a + 1) <<< (lens b - lens a)) % 65536 else codes i)
  | _, codes => codes

/-- `CreateCodesSlow(ctx, symbol_counts)`: zero both arrays; register every
symbol with a nonzero count (in ascending index order) with initial length
`HUFF_BITS_MAX`; sort the registered symbols by count; if exactly one symbol
was registered give it length 1 (part_002 line 148), otherwise run the
package-merge rows, sort by the resulting lengths and assign canonical codes.
The result is the `(codes, lens)` pair of the `HuffmanEncoder`. -/
def CreateCodesSlow (counts : ℕ → ℕ) : (ℕ → ℕ) × (ℕ → ℕ) :=
  let syms := (List.range SYMBOLS).filter fun i => counts i != 0
  let lens : ℕ → ℕ := fun i => if i < SYMBOLS ∧ counts i != 0 then HUFF_BITS_MAX else 0
  let sbc := merge_sort (fun s => counts s) syms
  if syms.length = 1 then
    (fun _ => 0, fun i => if i = sbc.headD 0 then 1 else lens i)
  else
    let lens1 := pmRows counts sbc HUFF_BITS_MAX [] lens
    let sbl := merge_sort (fun s => lens1 s) syms
    (assignCodes lens1 sbl (fun _ => 0), lens1)

/-! ## Theorems -/

/-- Claim C7 counterexample: the dictionary shift is not 6, and the hash
update is not `((h << 6) XOR c) AND 0x7FFF`: at `h = 1`, `c = 0` the code
produces 32, the claimed formula 64. -/
theorem hashShift_claim_cex :
    HashShift ≠ 6 ∧ HashUpdate 1 0 ≠ ((1 <<< 6) ^^^ 0) &&& 32767 := by
  decide

/-- Claim C7 (amended): `XpressDictionary_init` computes the shift with C
integer division, `(HASH_BITS + 2) / 3 = 17 / 3 = 5` (not the ceiling 6), so
for every hash state `h` and byte `c` the update used by `Init`, `Fill` and
`Find` computes `((h << 5) XOR c) AND 0x7FFF`. -/
theorem hashShift_contract :
    HashShift = (HASH_BITS + 2) / 3 ∧ HashShift = 5 ∧
    ∀ h c, HashUpdate h c = ((h <<< 5) ^^^ c) &&& 32767 :=
  ⟨rfl, rfl, fun _ _ => rfl⟩

/-- Claim C6 counterexample: for the writer state with `bits_used = 16` and a
call `WriteBits(0, 16)` (both within the claim's `bits_used ≤ 16`, `n ≤ 16`
bounds) the new bit count 32 exceeds 16, but the code's `bits &= 0xF` leaves
0 valid bits, not the claimed `bits_used − 16 = 16`. -/
theorem writeBits_claim_cex :
    (⟨4, 0, 2, 0, 16, fun _ => 0⟩ : OutputBitstream).bits ≤ 16 ∧ (16 : ℕ) ≤ 16 ∧
    16 < (⟨4, 0, 2, 0, 16, fun _ => 0⟩ : OutputBitstream).bits + 16 ∧
    (WriteBits ⟨4, 0, 2, 0, 16, fun _ => 0⟩ 0 16).bits ≠
      (⟨4, 0, 2, 0, 16, fun _ => 0⟩ : OutputBitstream).bits + 16 - 16 := by
  refine ⟨by norm_num, by norm_num, by norm_num, ?_⟩
  decide

/-- Claim C6 (amended): for every writer state with `bits_used ≤ 16` and call
`WriteBits(value, n)` with `n ≤ 16` and additionally `bits_used + n ≤ 31`
(the code's `bits &= 0xF` equals `bits − 16` only below 32): the value is
ORed into the accumulator at bit offset `32 − (bits_used + n)`; when the new
count exceeds 16 the top 16 accumulator bits are stored little-endian into
the pending slot, next-pending becomes pending, the old cursor becomes the
next-pending slot, the cursor advances by 2, the accumulator shifts left by
16 and `bits_used` drops by 16; otherwise only accumulator and count change. -/
theorem writeBits_contract (ctx : OutputBitstream) (b n : ℕ)
    (hbits : ctx.bits ≤ 16) (hn : n ≤ 16) (hsum : ctx.bits + n ≤ 31) :
    (16 < ctx.bits + n →
      (WriteBits ctx b n).bits = ctx.bits + n - 16 ∧
      (WriteBits ctx b n).mask =
        ((((ctx.mask ||| (b <<< (32 - (ctx.bits + n)))) % 4294967296) <<< 16) % 4294967296) ∧
      (WriteBits ctx b n).pntr0 = ctx.pntr1 ∧
      (WriteBits ctx b n).pntr1 = ctx.out ∧
      (WriteBits ctx b n).out = ctx.out + 2 ∧
      (WriteBits ctx b n).mem ctx.pntr0 =
        (((ctx.mask ||| (b <<< (32 - (ctx.bits + n)))) % 4294967296) >>> 16) % 256 ∧
      (WriteBits ctx b n).mem (ctx.pntr0 + 1) =
        (((ctx.mask ||| (b <<< (32 - (ctx.bits + n)))) % 4294967296) >>> 24) % 256 ∧
      ∀ a, a ≠ ctx.pntr0 → a ≠ ctx.pntr0 + 1 → (WriteBits ctx b n).mem a = ctx.mem a) ∧
    (ctx.bits + n ≤ 16 →
      (WriteBits ctx b n).bits = ctx.bits + n ∧
      (WriteBits ctx b n).mask = ((ctx.mask ||| (b <<< (32 - (ctx.bits + n)))) % 4294967296) ∧
      (WriteBits ctx b n).pntr0 = ctx.pntr0 ∧
      (WriteBits ctx b n).pntr1 = ctx.pntr1 ∧
      (WriteBits ctx b n).out = ctx.out ∧
      (WriteBits ctx b n).mem = ctx.mem) := by
  constructor
  · intro h16
    have e : WriteBits ctx b n =
        { out := ctx.out + 2, pntr0 := ctx.pntr1, pntr1 := ctx.out,
          mask := ((((ctx.mask ||| (b <<< (32 - (ctx.bits + n)))) % 4294967296) <<< 16) %
            4294967296),
          bits := (ctx.bits + n) &&& 15,
          mem := setUInt16 ctx.mem ctx.pntr0
            (((ctx.mask ||| (b <<< (32 - (ctx.bits + n)))) % 4294967296) >>> 16) } := by
      simp only [WriteBits, if_pos h16]
    rw [e]
    refine ⟨?_, rfl, rfl, rfl, rfl, ?_, ?_, ?_⟩
    · have hmod := Nat.and_pow_two_sub_one_eq_mod (ctx.bits + n) 4
      norm_num at hmod
      simp only [hmod]
      omega
    · simp [setUInt16]
    · have hne : ctx.pntr0 + 1 ≠ ctx.pntr0 := by omega
      simp only [setUInt16, if_neg hne, if_pos rfl]
      simp [Nat.shiftRight_eq_div_pow, Nat.div_div_eq_div_mul]
    · intro a ha0 ha1
      simp [setUInt16, ha0, ha1]
  · intro h16
    have e : WriteBits ctx b n =
        { ctx with mask := ((ctx.mask ||| (b <<< (32 - (ctx.bits + n)))) % 4294967296),
                   bits := ctx.bits + n } := by
      simp only [WriteBits, if_neg (by omega : ¬ 16 < ctx.bits + n)]
    rw [e]
    exact ⟨rfl, rfl, rfl, rfl, rfl, rfl⟩

/-- Claim C6 witness: state with 10 valid bits, `WriteBits(3, 8)` flushes:
bit count drops to 2 and both slot pointers rotate. -/
theorem writeBits_contract_witness :
    ((⟨4, 0, 2, 0, 10, fun _ => 0⟩ : OutputBitstream).bits ≤ 16 ∧ (8 : ℕ) ≤ 16 ∧
      (⟨4, 0, 2, 0, 10, fun _ => 0⟩ : OutputBitstream).bits + 8 ≤ 31 ∧
      16 < (⟨4, 0, 2, 0, 10, fun _ => 0⟩ : OutputBitstream).bits + 8) ∧
    (WriteBits ⟨4, 0, 2, 0, 10, fun _ => 0⟩ 3 8).bits = 2 ∧
    (WriteBits ⟨4, 0, 2, 0, 10, fun _ => 0⟩ 3 8).pntr0 = 2 ∧
    (WriteBits ⟨4, 0, 2, 0, 10, fun _ => 0⟩ 3 8).pntr1 = 4 ∧
    (WriteBits ⟨4, 0, 2, 0, 10, fun _ => 0⟩ 3 8).out = 6 := by
  have h := (writeBits_contract ⟨4, 0, 2, 0, 10, fun _ => 0⟩ 3 8 (by norm_num) (by norm_num)
    (by norm_num)).1 (by norm_num)
  exact ⟨⟨by norm_num, by norm_num, by norm_num, by norm_num⟩,
    by simpa using h.1, h.2.2.1, h.2.2.2.1, h.2.2.2.2.1⟩

/-- Claim C8: `WriteRawByte`, `WriteRawUInt16` and `WriteRawUInt32` write only
at the cursor and advance it by 1, 2 and 4; the slot pointers, accumulator
and bit count are untouched, so a later flushing `WriteBits` still stores its
16 bits at the originally reserved slot `pntr0`. -/
theorem writeRaw_frame (ctx : OutputBitstream) (x : ℕ) :
    ((WriteRawByte ctx x).out = ctx.out + 1 ∧ (WriteRawByte ctx x).pntr0 = ctx.pntr0 ∧
      (WriteRawByte ctx x).pntr1 = ctx.pntr1 ∧ (WriteRawByte ctx x).mask = ctx.mask ∧
      (WriteRawByte ctx x).bits = ctx.bits ∧
      ∀ a, a ≠ ctx.out → (WriteRawByte ctx x).mem a = ctx.mem a) ∧
    ((WriteRawUInt16 ctx x).out = ctx.out + 2 ∧ (WriteRawUInt16 ctx x).pntr0 = ctx.pntr0 ∧
      (WriteRawUInt16 ctx x).pntr1 = ctx.pntr1 ∧ (WriteRawUInt16 ctx x).mask = ctx.mask ∧
      (WriteRawUInt16 ctx x).bits = ctx.bits ∧
      ∀ a, a < ctx.out ∨ ctx.out + 2 ≤ a → (WriteRawUInt16 ctx x).mem a = ctx.mem a) ∧
    ((WriteRawUInt32 ctx x).out = ctx.out + 4 ∧ (WriteRawUInt32 ctx x).pntr0 = ctx.pntr0 ∧
      (WriteRawUInt32 ctx x).pntr1 = ctx.pntr1 ∧ (WriteRawUInt32 ctx x).mask = ctx.mask ∧
      (WriteRawUInt32 ctx x).bits = ctx.bits ∧
      ∀ a, a < ctx.out ∨ ctx.out + 4 ≤ a → (WriteRawUInt32 ctx x).mem a = ctx.mem a) ∧
    (∀ b n, 16 < ctx.bits + n →
      (WriteBits (WriteRawUInt32 ctx x) b n).mem ctx.pntr0 =
        (((ctx.mask ||| (b <<< (32 - (ctx.bits + n)))) % 4294967296) >>> 16) % 256) := by
  refine ⟨⟨rfl, rfl, rfl, rfl, rfl, ?_⟩, ⟨rfl, rfl, rfl, rfl, rfl, ?_⟩,
    ⟨rfl, rfl, rfl, rfl, rfl, ?_⟩, ?_⟩
  · intro a ha
    simp [WriteRawByte, ha]
  · intro a ha
    have h1 : a ≠ ctx.out := by omega
    have h2 : a ≠ ctx.out + 1 := by omega
    simp [WriteRawUInt16, setUInt16, h1, h2]
  · intro a ha
    have h1 : a ≠ ctx.out := by omega
    have h2 : a ≠ ctx.out + 1 := by omega
    have h3 : a ≠ ctx.out + 2 := by omega
    have h4 : a ≠ ctx.out + 3 := by omega
    simp [WriteRawUInt32, setUInt32, h1, h2, h3, h4]
  · intro b n h16
    have hb : (WriteRawUInt32 ctx x).bits = ctx.bits := rfl
    have hmask : (WriteRawUInt32 ctx x).mask = ctx.mask := rfl
    have hp : (WriteRawUInt32 ctx x).pntr0 = ctx.pntr0 := rfl
    simp only [WriteBits, hb, hmask, hp, if_pos h16]
    simp [setUInt16]

/-- The histogram update adds one per occurrence. -/
theorem addCounts_apply (l : List ℕ) (h : ℕ → ℕ) (v : ℕ) :
    addCounts h l v = h v + l.count v := by
  induction l generalizing h with
  | nil => simp [addCounts]
  | cons b t ih =>
    have : addCounts h (b :: t) = addCounts (bump h b) t := rfl
    rw [this, ih (bump h b)]
    by_cases hv : v = b <;> simp [bump, hv, List.count_cons] <;> try omega

/-- Invariant of the `while (in < in_endx)` loop of `xh_compress_no_matching`:
it processes some number `nb` of full 36-byte groups, consuming `32 * nb`
input bytes, and stops with between 1 and 32 bytes left (for nonempty input
and sufficient fuel). -/
theorem xhnmLoop_spec (fuel : ℕ) :
    ∀ (l : List ℕ) (w : ℕ) (h : ℕ → ℕ), 1 ≤ l.length → l.length ≤ 32 * fuel + 32 →
    ∃ nb, xhnmLoop fuel l w h =
        (w + 36 * nb, l.drop (32 * nb), addCounts h (l.take (32 * nb))) ∧
      nb + 1 = (l.length + 31) / 32 ∧ 32 * nb < l.length ∧ l.length ≤ 32 * nb + 32 := by
  induction fuel with
  | zero =>
    intro l w h h1 h2
    refine ⟨0, by simp [xhnmLoop, addCounts], by omega, by omega, by omega⟩
  | succ n ih =>
    intro l w h h1 h2
    by_cases h32 : 32 < l.length
    · have h1' : 1 ≤ (l.drop 32).length := by
        rw [List.length_drop]; omega
      have h2' : (l.drop 32).length ≤ 32 * n + 32 := by
        rw [List.length_drop]; omega
      obtain ⟨nb, he, hn1, hn2, hn3⟩ := ih (l.drop 32) (w + 36) (addCounts h (l.take 32)) h1' h2'
      have hlen : (l.drop 32).length = l.length - 32 := List.length_drop 32 l
      rw [hlen] at hn1 hn2 hn3
      refine ⟨nb + 1, ?_, by omega, by omega, by omega⟩
      have estep : xhnmLoop (n + 1) l w h =
          xhnmLoop n (l.drop 32) (w + 36) (addCounts h (l.take 32)) := by
        simp [xhnmLoop, h32]
      rw [estep, he]
      refine congrArg₂ Prod.mk (by omega) (congrArg₂ Prod.mk ?_ ?_)
      · rw [List.drop_drop]
        congr 1
        omega
      · funext v
        rw [addCounts_apply, addCounts_apply, addCounts_apply]
        have hsplit : l.take (32 * (nb + 1)) = l.take 32 ++ (l.drop 32).take (32 * nb) := by
          rw [show 32 * (nb + 1) = 32 + 32 * nb from by omega]
          exact List.take_add l 32 (32 * nb)
        rw [hsplit, List.count_append]
        omega
    · refine ⟨0, by simp [xhnmLoop, h32, addCounts], by omega, by omega, by omega⟩

/-- The whole input is the processed groups plus the remainder. -/
theorem count_take_drop (l : List ℕ) (k v : ℕ) :
    (l.take k).count v + (l.drop k).count v = l.count v := by
  rw [← List.count_append, List.take_append_drop]

/-- Claim C9: for nonempty byte input, `xh_compress_no_matching` reports
`in_len + 4 · ceil(in_len/32)` intermediate bytes when `is_end = 0`; with
`is_end = 1` it reports 3 more, plus another 4-byte mask word exactly when
`in_len` is a multiple of 32; the histogram counts each literal once per
occurrence, plus a single count of symbol 256 exactly when `is_end = 1`. -/
theorem xh_compress_no_matching_spec (inp : List ℕ) (h1 : 1 ≤ inp.length)
    (hb : ∀ b ∈ inp, b < 256) :
    (xh_compress_no_matching inp false).1 = inp.length + 4 * ((inp.length + 31) / 32) ∧
    (xh_compress_no_matching inp true).1 =
      inp.length + 4 * ((inp.length + 31) / 32) + 3 + (if 32 ∣ inp.length then 4 else 0) ∧
    (∀ v, v < 256 → (xh_compress_no_matching inp false).2 v = inp.count v) ∧
    (∀ v, v < 256 → (xh_compress_no_matching inp true).2 v = inp.count v) ∧
    (xh_compress_no_matching inp false).2 256 = 0 ∧
    (xh_compress_no_matching inp true).2 256 = 1 := by
  obtain ⟨nb, he, hn1, hn2, hn3⟩ :=
    xhnmLoop_spec inp.length inp 0 (fun _ => 0) h1 (by omega)
  have hrem : (inp.drop (32 * nb)).length = inp.length - 32 * nb := List.length_drop _ _
  have hcount : ∀ v, addCounts (addCounts (fun _ => 0) (inp.take (32 * nb)))
      (inp.drop (32 * nb)) v = inp.count v := by
    intro v
    rw [addCounts_apply, addCounts_apply]
    have := count_take_drop inp (32 * nb) v
    omega
  have hc256 : inp.count 256 = 0 := by
    rw [List.count_eq_zero]
    intro hmem
    exact absurd (hb 256 hmem) (by omega)
  have hfalse : xh_compress_no_matching inp false =
      (0 + 36 * nb + 4 + (inp.length - 32 * nb),
        addCounts (addCounts (fun _ => 0) (inp.take (32 * nb))) (inp.drop (32 * nb))) := by
    simp only [xh_compress_no_matching, he, hrem, Bool.false_eq_true, if_false]
  have htrue : xh_compress_no_matching inp true =
      (0 + 36 * nb + 4 + (inp.length - 32 * nb) +
          (if inp.length - 32 * nb = 32 then 4 else 0) + 3,
        bump (addCounts (addCounts (fun _ => 0) (inp.take (32 * nb)))
          (inp.drop (32 * nb))) 256) := by
    simp only [xh_compress_no_matching, he, hrem, if_true]
  refine ⟨?_, ?_, ?_, ?_, ?_, ?_⟩
  · rw [hfalse]; omega
  · rw [htrue]
    have hiff : (inp.length - 32 * nb = 32) ↔ (32 ∣ inp.length) := by omega
    rw [if_congr hiff rfl rfl]
    by_cases hd : 32 ∣ inp.length <;> simp only [hd, if_true, if_false] <;> omega
  · intro v hv
    rw [hfalse]
    exact hcount v
  · intro v hv
    rw [htrue]
    have hvne : v ≠ 256 := by omega
    simp only [bump, if_neg hvne]
    exact hcount v
  · rw [hfalse]
    exact (hcount 256).trans hc256
  · have h2 : (xh_compress_no_matching inp true).2 256 =
        addCounts (addCounts (fun _ => 0) (inp.take (32 * nb))) (inp.drop (32 * nb)) 256 + 1 := by
      rw [htrue]
      simp [bump]
    rw [h2, hcount 256, hc256]

/-- Claim C9 witness: for the single-byte input `[7]`, the no-matching pass
reports 5 bytes without end-of-stream, 8 bytes with it, and the end-of-stream
symbol is counted once. -/
theorem xh_compress_no_matching_spec_witness :
    1 ≤ ([7] : List ℕ).length ∧ (∀ b ∈ ([7] : List ℕ), b < 256) ∧
    (xh_compress_no_matching [7] false).1 =
      ([7] : List ℕ).length + 4 * ((([7] : List ℕ).length + 31) / 32) ∧
    (xh_compress_no_matching [7] true).2 256 = 1 := by
  have h := xh_compress_no_matching_spec [7] (by decide) (by decide)
  exact ⟨by decide, by decide, h.1, h.2.2.2.2.2⟩

/-- The chain walk visits at most `fuel` candidates. -/
theorem findVisits_length_le (bytes : ℕ → ℕ) (window : ℕ → Option ℕ) (endx data : ℕ) :
    ∀ fuel x? len, (findVisits bytes window endx data fuel x? len).length ≤ fuel := by
  intro fuel
  induction fuel with
  | zero => intro x? len; cases x? <;> simp [findVisits]
  | succ n ih =>
    intro x? len
    cases x? with
    | none => simp [findVisits]
    | some x =>
      by_cases hg : x + MAX_OFFSET < data
      · simp [findVisits, hg]
      · by_cases hp : pmatch bytes data x
        · by_cases hl : len < GetMatchLength bytes x data endx
          · by_cases h48 : NICE_LENGTH ≤ GetMatchLength bytes x data endx
            · simp [findVisits, hg, hp, hl, h48]
            · simp only [findVisits, if_neg hg, if_pos hp, if_pos hl, if_neg h48,
                List.length_cons]
              exact Nat.succ_le_succ (ih _ _)
          · simp only [findVisits, if_neg hg, if_pos hp, if_neg hl, List.length_cons]
            exact Nat.succ_le_succ (ih _ _)
        · simp only [findVisits, if_neg hg, if_neg hp, List.length_cons]
          exact Nat.succ_le_succ (ih _ _)

/-- Every visited candidate passed the `x >= data - MAX_OFFSET` window test. -/
theorem findVisits_guard (bytes : ℕ → ℕ) (window : ℕ → Option ℕ) (endx data : ℕ) :
    ∀ fuel x? len y, y ∈ findVisits bytes window endx data fuel x? len →
      data ≤ y + MAX_OFFSET := by
  intro fuel
  induction fuel with
  | zero => intro x? len y hy; cases x? <;> simp [findVisits] at hy
  | succ n ih =>
    intro x? len y hy
    cases x? with
    | none => simp [findVisits] at hy
    | some x =>
      by_cases hg : x + MAX_OFFSET < data
      · simp [findVisits, hg] at hy
      · by_cases hp : pmatch bytes data x
        · by_cases hl : len < GetMatchLength bytes x data endx
          · by_cases h48 : NICE_LENGTH ≤ GetMatchLength bytes x data endx
            · simp only [findVisits, if_neg hg, if_pos hp, if_pos hl, if_pos h48,
                List.mem_singleton] at hy
              omega
            · simp only [findVisits, if_neg hg, if_pos hp, if_pos hl, if_neg h48,
                List.mem_cons] at hy
              rcases hy with hy | hy
              · omega
              · exact ih _ _ _ hy
          · simp only [findVisits, if_neg hg, if_pos hp, if_neg hl, List.mem_cons] at hy
            rcases hy with hy | hy
            · omega
            · exact ih _ _ _ hy
        · simp only [findVisits, if_neg hg, if_neg hp, List.mem_cons] at hy
          rcases hy with hy | hy
          · omega
          · exact ih _ _ _ hy

/-- The best-so-far length never decreases along the walk. -/
theorem findLoop_mono (bytes : ℕ → ℕ) (window : ℕ → Option ℕ) (endx data : ℕ) :
    ∀ fuel x? len off, len ≤ (findLoop bytes window endx data fuel x? len off).1 := by
  intro fuel
  induction fuel with
  | zero => intro x? len off; cases x? <;> simp [findLoop]
  | succ n ih =>
    intro x? len off
    cases x? with
    | none => simp [findLoop]
    | some x =>
      by_cases hg : x + MAX_OFFSET < data
      · simp [findLoop, hg]
      · by_cases hp : pmatch bytes data x
        · by_cases hl : len < GetMatchLength bytes x data endx
          · by_cases h48 : NICE_LENGTH ≤ GetMatchLength bytes x data endx
            · simp only [findLoop, if_neg hg, if_pos hp, if_pos hl, if_pos h48]
              exact le_of_lt hl
            · simp only [findLoop, if_neg hg, if_pos hp, if_pos hl, if_neg h48]
              exact le_trans (le_of_lt hl) (ih _ _ _)
          · simp only [findLoop, if_neg hg, if_pos hp, if_neg hl]
            exact ih _ _ _
        · simp only [findLoop, if_neg hg, if_neg hp]
          exact ih _ _ _

/-- If the walk never improved the length, `*offset` was never written. -/
theorem findLoop_stay (bytes : ℕ → ℕ) (window : ℕ → Option ℕ) (endx data : ℕ) :
    ∀ fuel x? len off, (findLoop bytes window endx data fuel x? len off).1 = len →
      (findLoop bytes window endx data fuel x? len off).2 = off := by
  intro fuel
  induction fuel with
  | zero => intro x? len off _; cases x? <;> simp [findLoop]
  | succ n ih =>
    intro x? len off hres
    cases x? with
    | none => simp [findLoop]
    | some x =>
      by_cases hg : x + MAX_OFFSET < data
      · simp [findLoop, hg]
      · by_cases hp : pmatch bytes data x
        · by_cases hl : len < GetMatchLength bytes x data endx
          · by_cases h48 : NICE_LENGTH ≤ GetMatchLength bytes x data endx
            · simp only [findLoop, if_neg hg, if_pos hp, if_pos hl, if_pos h48] at hres ⊢
              omega
            · simp only [findLoop, if_neg hg, if_pos hp, if_pos hl, if_neg h48] at hres ⊢
              have := findLoop_mono bytes window endx data n (window (WindowPos x))
                (GetMatchLength bytes x data endx) (some (data - x))
              omega
          · simp only [findLoop, if_neg hg, if_pos hp, if_neg hl] at hres ⊢
            exact ih _ _ _ hres
        · simp only [findLoop, if_neg hg, if_neg hp] at hres ⊢
          exact ih _ _ _ hres

/-- Characterisation of a written offset: it names the first visited candidate
that achieved the final length; all prefix-matching candidates visited before
it had strictly smaller match lengths, and the final length strictly improved
on the starting one. -/
theorem findLoop_off (bytes : ℕ → ℕ) (window : ℕ → Option ℕ) (endx data : ℕ) :
    ∀ fuel x? len off o, (findLoop bytes window endx data fuel x? len off).2 = some o →
      (off = some o ∧ (findLoop bytes window endx data fuel x? len off).1 = len) ∨
      ∃ l1 x l2, findVisits bytes window endx data fuel x? len = l1 ++ x :: l2 ∧
        pmatch bytes data x ∧
        GetMatchLength bytes x data endx = (findLoop bytes window endx data fuel x? len off).1 ∧
        o = data - x ∧ len < (findLoop bytes window endx data fuel x? len off).1 ∧
        ∀ y ∈ l1, pmatch bytes data y →
          GetMatchLength bytes y data endx < (findLoop bytes window endx data fuel x? len off).1 := by
  intro fuel
  induction fuel with
  | zero =>
    intro x? len off o ho
    have e : findLoop bytes window endx data 0 x? len off = (len, off) := by
      cases x? <;> simp [findLoop]
    rw [e] at ho
    rw [e]
    exact Or.inl ⟨ho, rfl⟩
  | succ n ih =>
    intro x? len off o ho
    cases x? with
    | none =>
      have e : findLoop bytes window endx data (n + 1) none len off = (len, off) := by
        simp [findLoop]
      rw [e] at ho
      rw [e]
      exact Or.inl ⟨ho, rfl⟩
    | some x =>
      by_cases hg : x + MAX_OFFSET < data
      · have e : findLoop bytes window endx data (n + 1) (some x) len off = (len, off) := by
          simp [findLoop, hg]
        rw [e] at ho
        rw [e]
        exact Or.inl ⟨ho, rfl⟩
      · by_cases hp : pmatch bytes data x
        · by_cases hl : len < GetMatchLength bytes x data endx
          · by_cases h48 : NICE_LENGTH ≤ GetMatchLength bytes x data endx
            · simp only [findLoop, if_neg hg, if_pos hp, if_pos hl, if_pos h48] at ho ⊢
              simp only [findVisits, if_neg hg, if_pos hp, if_pos hl, if_pos h48]
              have hdx := Option.some.inj ho
              exact Or.inr ⟨[], x, [], rfl, hp, rfl, hdx.symm, hl, by simp⟩
            · simp only [findLoop, if_neg hg, if_pos hp, if_pos hl, if_neg h48] at ho ⊢
              simp only [findVisits, if_neg hg, if_pos hp, if_pos hl, if_neg h48]
              rcases ih (window (WindowPos x)) (GetMatchLength bytes x data endx)
                  (some (data - x)) o ho with ⟨hoff, hres⟩ | ⟨l1, xx, l2, hdec, hpm, hgml, hoo, hlt, hbefore⟩
              · have hdx := Option.some.inj hoff
                refine Or.inr ⟨[], x, _, rfl, hp, hres.symm, hdx.symm, ?_, by simp⟩
                omega
              · refine Or.inr ⟨x :: l1, xx, l2, by rw [hdec, List.cons_append], hpm, hgml, hoo, by omega, ?_⟩
                intro y hy hpy
                rcases List.mem_cons.mp hy with hy | hy
                · subst hy
                  omega
                · exact hbefore y hy hpy
          · simp only [findLoop, if_neg hg, if_pos hp, if_neg hl] at ho ⊢
            simp only [findVisits, if_neg hg, if_pos hp, if_neg hl]
            rcases ih (window (WindowPos x)) len off o ho with ⟨hoff, hres⟩ |
              ⟨l1, xx, l2, hdec, hpm, hgml, hoo, hlt, hbefore⟩
            · exact Or.inl ⟨hoff, hres⟩
            · refine Or.inr ⟨x :: l1, xx, l2, by rw [hdec, List.cons_append], hpm, hgml, hoo, hlt, ?_⟩
              intro y hy hpy
              rcases List.mem_cons.mp hy with hy | hy
              · subst hy
                omega
              · exact hbefore y hy hpy
        · simp only [findLoop, if_neg hg, if_neg hp] at ho ⊢
          simp only [findVisits, if_neg hg, if_neg hp]
          rcases ih (window (WindowPos x)) len off o ho with ⟨hoff, hres⟩ |
            ⟨l1, xx, l2, hdec, hpm, hgml, hoo, hlt, hbefore⟩
          · exact Or.inl ⟨hoff, hres⟩
          · refine Or.inr ⟨x :: l1, xx, l2, by rw [hdec, List.cons_append], hpm, hgml, hoo, hlt, ?_⟩
            intro y hy hpy
            rcases List.mem_cons.mp hy with hy | hy
            · exact absurd hpy (hy ▸ hp)
            · exact hbefore y hy hpy

/-- Members of `dropLast` of a cons. -/
theorem mem_dropLast_cons {y a : ℕ} {t : List ℕ} (h : y ∈ (a :: t).dropLast) :
    y = a ∨ y ∈ t.dropLast := by
  cases t with
  | nil => simp at h
  | cons b t2 =>
    rw [show (a :: b :: t2).dropLast = a :: (b :: t2).dropLast from rfl] at h
    exact List.mem_cons.mp h

/-- Early termination: every visited candidate other than the last one left
the best length below `NICE_LENGTH` — so the walk stops at the first match of
length at least `NICE_LENGTH`. -/
theorem findVisits_break (bytes : ℕ → ℕ) (window : ℕ → Option ℕ) (endx data : ℕ) :
    ∀ fuel x? len, len < NICE_LENGTH →
      ∀ y ∈ (findVisits bytes window endx data fuel x? len).dropLast,
        pmatch bytes data y → GetMatchLength bytes y data endx < NICE_LENGTH := by
  intro fuel
  induction fuel with
  | zero => intro x? len _ y hy; cases x? <;> simp [findVisits] at hy
  | succ n ih =>
    intro x? len hlen y hy hpy
    cases x? with
    | none => simp [findVisits] at hy
    | some x =>
      by_cases hg : x + MAX_OFFSET < data
      · simp [findVisits, hg] at hy
      · by_cases hp : pmatch bytes data x
        · by_cases hl : len < GetMatchLength bytes x data endx
          · by_cases h48 : NICE_LENGTH ≤ GetMatchLength bytes x data endx
            · simp only [findVisits, if_neg hg, if_pos hp, if_pos hl, if_pos h48,
                List.dropLast_single] at hy
              simp at hy
            · simp only [findVisits, if_neg hg, if_pos hp, if_pos hl, if_neg h48] at hy
              rcases mem_dropLast_cons hy with hy | hy
              · subst hy
                omega
              · exact ih _ _ (by omega) y hy hpy
          · simp only [findVisits, if_neg hg, if_pos hp, if_neg hl] at hy
            rcases mem_dropLast_cons hy with hy | hy
            · subst hy
              omega
            · exact ih _ _ hlen y hy hpy
        · simp only [findVisits, if_neg hg, if_neg hp] at hy
          rcases mem_dropLast_cons hy with hy | hy
          · exact absurd hpy (hy ▸ hp)
          · exact ih _ _ hlen y hy hpy

/-- Claim C5: for every byte map, chain map (so in particular every dictionary
state produced by `Init` and `Fill`) and query position, `Find` (i) considers
at most `MAX_CHAIN = 11` chain candidates, (ii) considers only candidates at
distance at most `MAX_OFFSET = 65535` from `data`, (iii) returns at least the
initial best length 2, (iv) returns below 3 exactly with the untouched best
length 2 and no written offset — no usable match, (v) when an offset is
written it names the first visited candidate achieving the final (strictly
improved) length, every prefix-matching candidate before it having a strictly
smaller match — equal lengths keep the earlier candidate — and (vi) every
visited candidate except possibly the last had a match below
`NICE_LENGTH = 48`, i.e. the walk stops as soon as 48 is reached. -/
theorem find_contract (bytes : ℕ → ℕ) (window : ℕ → Option ℕ) (endx data : ℕ) :
    (FindConsidered bytes window endx data).length ≤ MAX_CHAIN ∧
    (∀ y ∈ FindConsidered bytes window endx data, data ≤ y + MAX_OFFSET) ∧
    2 ≤ (Find bytes window endx data).1 ∧
    ((Find bytes window endx data).1 < 3 →
      (Find bytes window endx data).1 = 2 ∧ (Find bytes window endx data).2 = none) ∧
    (∀ o, (Find bytes window endx data).2 = some o →
      ∃ l1 x l2, FindConsidered bytes window endx data = l1 ++ x :: l2 ∧
        pmatch bytes data x ∧
        GetMatchLength bytes x data endx = (Find bytes window endx data).1 ∧
        o = data - x ∧ 2 < (Find bytes window endx data).1 ∧
        ∀ y ∈ l1, pmatch bytes data y →
          GetMatchLength bytes y data endx < (Find bytes window endx data).1) ∧
    (∀ y ∈ (FindConsidered bytes window endx data).dropLast,
      pmatch bytes data y → GetMatchLength bytes y data endx < NICE_LENGTH) := by
  have eF : Find bytes window endx data =
      findLoop bytes window endx data MAX_CHAIN (window (WindowPos data)) 2 none := rfl
  have eC : FindConsidered bytes window endx data =
      findVisits bytes window endx data MAX_CHAIN (window (WindowPos data)) 2 := rfl
  refine ⟨?_, ?_, ?_, ?_, ?_, ?_⟩
  · rw [eC]
    exact findVisits_length_le bytes window endx data MAX_CHAIN _ 2
  · rw [eC]
    exact fun y hy => findVisits_guard bytes window endx data MAX_CHAIN _ 2 y hy
  · rw [eF]
    exact findLoop_mono bytes window endx data MAX_CHAIN _ 2 none
  · intro hlt
    rw [eF] at hlt ⊢
    have hmono := findLoop_mono bytes window endx data MAX_CHAIN (window (WindowPos data)) 2 none
    have h2 : (findLoop bytes window endx data MAX_CHAIN (window (WindowPos data)) 2 none).1 = 2 := by
      omega
    exact ⟨h2, findLoop_stay bytes window endx data MAX_CHAIN _ 2 none h2⟩
  · intro o ho
    rw [eF] at ho
    rcases findLoop_off bytes window endx data MAX_CHAIN (window (WindowPos data)) 2 none o ho with
      ⟨hoff, _⟩ | ⟨l1, x, l2, hdec, hpm, hgml, hoo, hlt, hbefore⟩
    · exact absurd hoff (by simp)
    · exact ⟨l1, x, l2, by rw [eC, hdec], hpm, by rw [eF]; exact hgml, hoo,
        by rw [eF]; exact hlt, fun y hy hpy => by rw [eF]; exact hbefore y hy hpy⟩
  · rw [eC]
    exact findVisits_break bytes window endx data MAX_CHAIN _ 2 (by norm_num [NICE_LENGTH])

/-- Claim C5 witness: with all input bytes equal, window end 8, query
position 3 and a single chain entry at position 0, `Find` returns length 4
with offset 3, and the characterisation instantiates concretely. -/
theorem find_contract_witness :
    (Find (fun _ => 0) (fun i => if i = 3 then some 0 else none) 8 3).2 = some 3 ∧
    ∃ l1 x l2,
      FindConsidered (fun _ => 0) (fun i => if i = 3 then some 0 else none) 8 3 = l1 ++ x :: l2 ∧
      pmatch (fun _ => 0) 3 x ∧
      GetMatchLength (fun _ => 0) x 3 8 =
        (Find (fun _ => 0) (fun i => if i = 3 then some 0 else none) 8 3).1 ∧
      (3 : ℕ) = 3 - x ∧
      2 < (Find (fun _ => 0) (fun i => if i = 3 then some 0 else none) 8 3).1 ∧
      ∀ y ∈ l1, pmatch (fun _ => 0) 3 y →
        GetMatchLength (fun _ => 0) y 3 8 <
          (Find (fun _ => 0) (fun i => if i = 3 then some 0 else none) 8 3).1 := by
  have h := find_contract (fun _ => 0) (fun i => if i = 3 then some 0 else none) 8 3
  exact ⟨by decide, h.2.2.2.2.1 3 (by decide)⟩

/-- A range filter with no hits is empty. -/
theorem filter_range_none (p : ℕ → Bool) (n : ℕ) (hall : ∀ j, j < n → p j = false) :
    (List.range n).filter p = [] := by
  rw [List.filter_eq_nil_iff]
  intro a ha
  rw [List.mem_range] at ha
  simp [hall a ha]

/-- A range filter hitting exactly one index yields that singleton. -/
theorem filter_range_single (p : ℕ → Bool) (n s : ℕ) (hs : s < n) (hps : p s = true)
    (hq : ∀ j, j < n → j ≠ s → p j = false) :
    (List.range n).filter p = [s] := by
  induction n with
  | zero => omega
  | succ m ih =>
    rw [List.range_succ, List.filter_append]
    by_cases hsm : s = m
    · subst hsm
      rw [filter_range_none p s (fun j hj => hq j (by omega) (by omega))]
      simp [hps]
    · have hpm : p m = false := hq m (by omega) (fun h => hsm h.symm)
      rw [ih (by omega) (fun j hj hne => hq j (by omega) hne)]
      simp [hpm]

/-- Claim C10: when exactly one symbol has a nonzero count, `CreateCodesSlow`
gives it length 1 and code 0, all other symbols length 0; in particular the
length array is not all-zero. -/
theorem createCodesSlow_single (counts : ℕ → ℕ) (s : ℕ) (hs : s < 512)
    (hc : counts s ≠ 0) (hq : ∀ j, j < 512 → j ≠ s → counts j = 0) :
    (CreateCodesSlow counts).2 s = 1 ∧ (CreateCodesSlow counts).1 s = 0 ∧
    (∀ j, j < 512 → j ≠ s → (CreateCodesSlow counts).2 j = 0) ∧
    ¬ ∀ j, j < 512 → (CreateCodesSlow counts).2 j = 0 := by
  have hsyms : (List.range SYMBOLS).filter (fun i => counts i != 0) = [s] := by
    apply filter_range_single _ _ _ hs
    · simp [hc]
    · intro j hj hne
      simp [hq j hj hne]
  have hsort : merge_sort (fun t => counts t) [s] = [s] := by
    rw [merge_sort, dif_pos (by simp : ([s] : List ℕ).length < 90)]
    rfl
  have hres : CreateCodesSlow counts =
      (fun _ => 0, fun i => if i = s then 1
        else if i < SYMBOLS ∧ counts i != 0 then HUFF_BITS_MAX else 0) := by
    simp only [CreateCodesSlow, hsyms, hsort]
    simp
  rw [hres]
  refine ⟨by simp, rfl, ?_, ?_⟩
  · intro j hj hne
    have hz : counts j = 0 := hq j hj hne
    simp [hne, hz]
  · intro hall
    have := hall s hs
    simp at this

/-- Claim C10 witness: the histogram with a single hit at symbol 0 gets
length 1 and code 0 for symbol 0. -/
theorem createCodesSlow_single_witness :
    (0 : ℕ) < 512 ∧ (fun i : ℕ => if i = 0 then 5 else 0) 0 ≠ 0 ∧
    (∀ j, j < 512 → j ≠ 0 → (fun i : ℕ => if i = 0 then 5 else 0) j = 0) ∧
    (CreateCodesSlow (fun i : ℕ => if i = 0 then 5 else 0)).2 0 = 1 ∧
    (CreateCodesSlow (fun i : ℕ => if i = 0 then 5 else 0)).1 0 = 0 := by
  have h := createCodesSlow_single (fun i : ℕ => if i = 0 then 5 else 0) 0 (by norm_num)
    (by norm_num) (fun j hj hne => by simp [hne])
  exact ⟨by norm_num, by norm_num, fun j hj hne => by simp [hne], h.1, h.2.1⟩

/-- Claim C8 witness: at a concrete state, a raw byte write leaves the byte
at address 5, the pointers and the bit state unchanged, and a following
16-bit flush lands at slot 0. -/
theorem writeRaw_frame_witness :
    ((5 : ℕ) ≠ (⟨10, 0, 2, 7, 3, fun _ => 9⟩ : OutputBitstream).out) ∧
    (WriteRawByte ⟨10, 0, 2, 7, 3, fun _ => 9⟩ 300).mem 5 = 9 ∧
    (WriteRawByte ⟨10, 0, 2, 7, 3, fun _ => 9⟩ 300).pntr0 = 0 ∧
    (WriteRawByte ⟨10, 0, 2, 7, 3, fun _ => 9⟩ 300).bits = 3 ∧
    16 < (⟨10, 0, 2, 7, 3, fun _ => 9⟩ : OutputBitstream).bits + 16 ∧
    (WriteBits (WriteRawUInt32 ⟨10, 0, 2, 7, 3, fun _ => 9⟩ 300) 1 16).mem 0 =
      (((7 ||| (1 <<< (32 - (3 + 16)))) % 4294967296) >>> 16) % 256 := by
  have h := writeRaw_frame ⟨10, 0, 2, 7, 3, fun _ => 9⟩ 300
  exact ⟨by norm_num, h.1.2.2.2.2.2 5 (by norm_num), h.1.2.1, h.1.2.2.2.2.1,
    by norm_num, h.2.2.2 1 16 (by norm_num)⟩

end XpressHuff
